import Mathlib

/-!
Verification of the seagrass-bathymetry feature-preparation core
(`seagrass/prepare.py`) against its natural-language specification.

The embedding models numpy arrays over exact rationals:
a 2D plane is a row-major list of rows, a band stack is a list of planes.
Fallible numpy operations (indexing, `np.vstack`, boolean row selection)
return `Option`.  The Gaussian smoothing primitive from scipy is an
external collaborator of the core, so it is a parameter `blurFn` taking
the standard deviation and the 2D plane, exactly as the source passes
`gaussian_filter(data[band], 2.0)`.
-/

/-- A 2D numeric plane, indexed (row, col), stored row-major. -/
abbrev Plane := List (List ℚ)

/-- A 3D band stack, indexed (band, row, col). -/
abbrev Stack := List Plane

/-- The plane `p` has `r` rows, each of length `c`. -/
def Plane.hasShape (p : Plane) (r c : ℕ) : Prop :=
  p.length = r ∧ ∀ row ∈ p, row.length = c

/-- The stack `s` has `nb` bands, each an `r × c` plane. -/
def Stack.hasShape (s : Stack) (nb r c : ℕ) : Prop :=
  s.length = nb ∧ ∀ p ∈ s, p.hasShape r c

/-- numpy `ravel`: row-major flattening of a 2D plane. -/
def Plane.ravel (p : Plane) : List ℚ := p.flatten

/-- Resolve a (possibly negative) numpy index against axis length `n`:
`0 ≤ i < n` maps to `i`, `-n ≤ i < 0` maps to `n + i`, anything else is
an `IndexError` (`none`). -/
def resolveIndex (n : ℕ) (i : ℤ) : Option ℕ :=
  if 0 ≤ i then
    if i.toNat < n then some i.toNat else none
  else
    if (-i).toNat ≤ n then some (n - (-i).toNat) else none

/-- numpy indexing `data[band]` on the band axis, negative indices
included. -/
def Stack.npGet (s : Stack) (i : ℤ) : Option Plane :=
  (resolveIndex s.length i).bind fun k => s.get? k

/-- Model of `np.vstack(arrs).T` for a list of 1D arrays: fails when `arrs` is
empty (`ValueError: need at least one array to concatenate`) or when the
1D arrays have unequal lengths; otherwise row `i` of the result collects
entry `i` of every input array in order. -/
def vstackT (arrs : List (List ℚ)) : Option (List (List ℚ)) :=
  match arrs with
  | [] => none
  | a :: rest =>
    if rest.all fun r => r.length = a.length then
      some ((List.range a.length).map fun i => arrs.map fun r => r.getD i 0)
    else none

/-- Evaluate a Python list comprehension whose body may raise: the
first failure aborts the whole comprehension. -/
def traverseOption {α β : Type} (f : α → Option β) : List α → Option (List β)
  | [] => some []
  | a :: t => (f a).bind fun b => (traverseOption f t).bind fun bs => some (b :: bs)

/-- The default band selection `list(np.arange(len(data)))`:
all band indices in natural order. -/
def defaultBands (data : Stack) : List ℤ :=
  (List.range data.length).map Int.ofNat

/-- Model of `return_features(data, bands=None, blurring=False)` from
`seagrass/prepare.py`: flatten each selected band row-major into a
feature column, optionally append a smoothed copy of each selected band
(Gaussian, standard deviation 2.0) after all unblurred columns, and
stack the columns into a (pixels, features) matrix. -/
def return_features (blurFn : ℚ → Plane → Plane) (data : Stack)
    (bandsOpt : Option (List ℤ)) (blurring : Bool) :
    Option (List (List ℚ)) := do
  let bands := bandsOpt.getD (defaultBands data)
  let bands_1D ← traverseOption (fun b => (data.npGet b).map Plane.ravel) bands
  let all_bands ←
    if blurring then do
      let blurred_1D ← traverseOption
        (fun b => (data.npGet b).map fun p => Plane.ravel (blurFn 2 p)) bands
      pure (bands_1D ++ blurred_1D)
    else pure bands_1D
  vstackT all_bands

/-- The row-major flattening of the validity mask
`ground_truth_data != no_data_value`. -/
def maskFlat (ground_truth_data : Plane) (no_data_value : ℚ) : List Bool :=
  (ground_truth_data.map fun row =>
    row.map fun v => decide (v ≠ no_data_value)).flatten

/-- numpy boolean row selection `A[mask]`: fails (`IndexError`) unless
the boolean index has exactly one entry per row of `A`. -/
def boolSelect (rows : List (List ℚ)) (mask : List Bool) :
    Option (List (List ℚ)) :=
  if mask.length = rows.length then
    some (((rows.zip mask).filter fun p => p.2).map fun p => p.1)
  else none

/-- Model of `create_training_data(s2_data, ground_truth_data, no_data_value,
s2_bands=None)` from `seagrass/prepare.py`: mask out no-data pixels,
keep the corresponding rows of the unblurred feature matrix, and pair
them with the absolute ground-truth values reshaped to a column. -/
def create_training_data (blurFn : ℚ → Plane → Plane) (s2_data : Stack)
    (ground_truth_data : Plane) (no_data_value : ℚ)
    (s2_bandsOpt : Option (List ℤ)) :
    Option (List (List ℚ) × List (List ℚ)) := do
  let s2_bands := s2_bandsOpt.getD (defaultBands s2_data)
  let mflat := maskFlat ground_truth_data no_data_value
  let feats ← return_features blurFn s2_data (some s2_bands) false
  let X ← boolSelect feats mflat
  let y := ((((ground_truth_data.map fun row => row.map abs).flatten).zip
      mflat).filter fun p => p.2).map fun p => [p.1]
  pure (X, y)

/-- Model of `create_prediction_features(s2_data, s2_bands=None)` from
`seagrass/prepare.py`: the full unblurred feature matrix. -/
def create_prediction_features (blurFn : ℚ → Plane → Plane)
    (s2_data : Stack) (s2_bandsOpt : Option (List ℤ)) :
    Option (List (List ℚ)) := do
  let s2_bands := s2_bandsOpt.getD (defaultBands s2_data)
  return_features blurFn s2_data (some s2_bands) false

/-- A trivial smoothing function used only to instantiate witnesses. -/
def idBlur : ℚ → Plane → Plane := fun _ p => p

/-- The two-band 2×2 stack of the spec scenario:
band0 = [[1,2],[3,4]], band1 = [[5,6],[7,8]]. -/
def stackEx : Stack := [[[1, 2], [3, 4]], [[5, 6], [7, 8]]]

/-- A one-band stack whose plane is 2×3. -/
def stackRect : Stack := [[[1, 2, 3], [4, 5, 6]]]

/-- A 3×2 ground truth: transposed dimensions relative to `stackRect`
but the same total pixel count. -/
def gtTrans : Plane := [[1, 2], [3, 0], [5, 6]]

/-- A 2×2 ground truth: pixel count different from `stackRect` planes. -/
def gtSquare : Plane := [[1, 2], [3, 4]]

/-- The spec scenario ground truth [[-1, nd], [nd, 3]] with nd = -9999. -/
def gtValid : Plane := [[-1, -9999], [-9999, 3]]

/-- A ground truth with a valid entry -5, to exercise the
absolute-value labelling. -/
def gtNeg : Plane := [[-5, -9999], [-9999, 3]]

instance (p : Plane) (r c : ℕ) : Decidable (p.hasShape r c) := by
  unfold Plane.hasShape; infer_instance

instance (s : Stack) (nb r c : ℕ) : Decidable (s.hasShape nb r c) := by
  unfold Stack.hasShape; infer_instance

/-- If `f` succeeds with `g a` on every element, the traversal collects
the map. -/
theorem traverseOption_eq_map {α β : Type} (f : α → Option β) (g : α → β)
    (l : List α) (h : ∀ a ∈ l, f a = some (g a)) :
    traverseOption f l = some (l.map g) := by
  induction l with
  | nil => simp [traverseOption]
  | cons a t ih =>
    simp [traverseOption, h a (by simp),
      ih fun x hx => h x (List.mem_cons_of_mem a hx)]

/-- Every element produced by a successful traversal comes from some
input. -/
theorem mem_of_traverseOption_some {α β : Type} (f : α → Option β)
    (l : List α) (bs : List β) (h : traverseOption f l = some bs) :
    ∀ b ∈ bs, ∃ a ∈ l, f a = some b := by
  induction l generalizing bs with
  | nil =>
    simp only [traverseOption] at h
    cases h
    simp
  | cons a t ih =>
    simp only [traverseOption] at h
    cases hfa : f a with
    | none => rw [hfa] at h; simp at h
    | some x =>
      rw [hfa] at h
      cases hmt : traverseOption f t with
      | none => rw [hmt] at h; simp at h
      | some xs =>
        rw [hmt] at h
        simp only [Option.some_bind] at h
        have hbs : bs = x :: xs := by simpa using h.symm
        subst hbs
        intro b hb
        rcases List.mem_cons.mp hb with hb | hb
        · exact ⟨a, by simp, hb ▸ hfa⟩
        · obtain ⟨a0, ha0, hfa0⟩ := ih xs hmt b hb
          exact ⟨a0, List.mem_cons_of_mem a ha0, hfa0⟩

/-- A single failing element makes the whole traversal fail. -/
theorem traverseOption_eq_none {α β : Type} (f : α → Option β) (l : List α)
    (a : α) (ha : a ∈ l) (hf : f a = none) : traverseOption f l = none := by
  induction l with
  | nil => cases ha
  | cons x t ih =>
    rcases List.mem_cons.mp ha with h | h
    · subst h; simp [traverseOption, hf]
    · cases hfx : f x <;> simp [traverseOption, hfx, ih h]

/-- The row-major flattening of an `r × c` plane has `r * c` entries. -/
theorem Plane.ravel_length {p : Plane} {r c : ℕ} (h : p.hasShape r c) :
    p.ravel.length = r * c := by
  obtain ⟨hr, hc⟩ := h
  subst hr
  simp only [Plane.ravel, List.length_flatten]
  have hall : ∀ x ∈ p.map List.length, x = c := by
    intro x hx
    obtain ⟨row, hrow, rfl⟩ := List.mem_map.mp hx
    exact hc row hrow
  rw [List.sum_eq_card_nsmul _ c hall]
  simp [List.length_map]

/-- In-bounds `get?` returns the `getD` value. -/
theorem get?_eq_some_getD {α : Type} (l : List α) (d : α) (k : ℕ)
    (h : k < l.length) : l.get? k = some (l.getD k d) := by
  rw [List.getD_eq_get?]
  cases hk : l.get? k with
  | none => rw [List.get?_eq_none] at hk; omega
  | some v => rfl

/-- A plane produced by numpy band indexing belongs to the stack. -/
theorem Stack.npGet_mem {s : Stack} {i : ℤ} {p : Plane}
    (h : s.npGet i = some p) : p ∈ s := by
  unfold Stack.npGet at h
  cases hr : resolveIndex s.length i with
  | none => rw [hr] at h; simp at h
  | some k =>
    rw [hr] at h
    simp only [Option.some_bind] at h
    exact List.get?_mem h

/-- Non-negative in-range numpy indexing returns the band directly. -/
theorem Stack.npGet_nonneg {s : Stack} {b : ℤ} (h0 : 0 ≤ b)
    (h1 : b.toNat < s.length) : s.npGet b = some (s.getD b.toNat []) := by
  unfold Stack.npGet resolveIndex
  rw [if_pos h0, if_pos h1]
  exact get?_eq_some_getD s [] _ h1

/-- Negative numpy indexing `-k` resolves to band `length - k`. -/
theorem Stack.npGet_neg {s : Stack} {k : ℕ} (h1 : 1 ≤ k)
    (h2 : k ≤ s.length) :
    s.npGet (-(k : ℤ)) = some (s.getD (s.length - k) []) := by
  unfold Stack.npGet resolveIndex
  have h0 : ¬ (0 ≤ -(k : ℤ)) := by omega
  have hk : (-(-(k : ℤ))).toNat = k := by omega
  rw [if_neg h0, hk, if_pos h2]
  exact get?_eq_some_getD s [] _ (by omega)

/-- The unblurred feature column extracted for band index `b`. -/
def Stack.bandRavel (data : Stack) (b : ℤ) : List ℚ :=
  Plane.ravel ((data.npGet b).getD [])

/-- The blurred feature column extracted for band index `b`. -/
def Stack.blurRavel (blurFn : ℚ → Plane → Plane) (data : Stack) (b : ℤ) :
    List ℚ :=
  Plane.ravel (blurFn 2 ((data.npGet b).getD []))

/-- Specification of `vstackT` on a non-empty list of equal-length
arrays. -/
theorem vstackT_spec {arrs : List (List ℚ)} {n : ℕ} (hne : arrs ≠ [])
    (hlen : ∀ x ∈ arrs, x.length = n) :
    vstackT arrs =
      some ((List.range n).map fun i => arrs.map fun r => r.getD i 0) := by
  cases arrs with
  | nil => exact absurd rfl hne
  | cons a rest =>
    have ha : a.length = n := hlen a (by simp)
    have hall : (rest.all fun r => r.length = a.length) = true := by
      rw [List.all_eq_true]
      intro r hr
      simp [hlen r (by simp [hr]), ha]
    simp only [vstackT, hall, if_true]
    rw [ha]

/-- With `blurring = false` the feature builder is the band traversal
followed by `vstackT`. -/
theorem rf_false_bind (blurFn : ℚ → Plane → Plane) (data : Stack)
    (bands : List ℤ) :
    return_features blurFn data (some bands) false =
      (traverseOption (fun b => (data.npGet b).map Plane.ravel)
        bands).bind vstackT := by
  simp only [return_features, Option.getD_some]
  cases traverseOption (fun b => (data.npGet b).map Plane.ravel) bands <;> rfl

/-- With `blurring = true` the feature builder is both traversals
followed by `vstackT` of the concatenation. -/
theorem rf_true_bind (blurFn : ℚ → Plane → Plane) (data : Stack)
    (bands : List ℤ) :
    return_features blurFn data (some bands) true =
      (traverseOption (fun b => (data.npGet b).map Plane.ravel)
        bands).bind fun bands_1D =>
      (traverseOption
        (fun b => (data.npGet b).map fun p => Plane.ravel (blurFn 2 p))
        bands).bind fun blurred_1D =>
      vstackT (bands_1D ++ blurred_1D) := by
  simp only [return_features, Option.getD_some]
  cases traverseOption (fun b => (data.npGet b).map Plane.ravel) bands with
  | none => rfl
  | some bs =>
    cases traverseOption
      (fun b => (data.npGet b).map fun p => Plane.ravel (blurFn 2 p))
      bands <;> rfl

/-- Unblurred feature extraction on a shaped stack with valid bands:
the exact output matrix. -/
theorem rf_false_eq (blurFn : ℚ → Plane → Plane) {data : Stack}
    {nb r c : ℕ} {bands : List ℤ} (hS : data.hasShape nb r c)
    (hne : bands ≠ [])
    (hvalid : ∀ b ∈ bands, (data.npGet b).isSome = true) :
    return_features blurFn data (some bands) false =
      some ((List.range (r * c)).map fun i =>
        bands.map fun b => (data.bandRavel b).getD i 0) := by
  have hmap : traverseOption (fun b => (data.npGet b).map Plane.ravel) bands
      = some (bands.map data.bandRavel) := by
    apply traverseOption_eq_map
    intro b hb
    obtain ⟨p, hp⟩ := Option.isSome_iff_exists.mp (hvalid b hb)
    rw [hp]
    simp [Stack.bandRavel, hp]
  have hlen : ∀ x ∈ bands.map data.bandRavel, x.length = r * c := by
    intro x hx
    obtain ⟨b, hb, rfl⟩ := List.mem_map.mp hx
    obtain ⟨p, hp⟩ := Option.isSome_iff_exists.mp (hvalid b hb)
    have hpm : p ∈ data := Stack.npGet_mem hp
    have := Plane.ravel_length (hS.2 p hpm)
    simpa [Stack.bandRavel, hp] using this
  have hne' : bands.map data.bandRavel ≠ [] := by
    simpa using hne
  rw [rf_false_bind, hmap, Option.some_bind, vstackT_spec hne' hlen]
  simp only [List.map_map]
  rfl

/-- Blurred feature extraction on a shaped stack with valid bands and a
shape-preserving smoothing primitive: the exact output matrix. -/
theorem rf_true_eq (blurFn : ℚ → Plane → Plane) {data : Stack}
    {nb r c : ℕ} {bands : List ℤ} (hS : data.hasShape nb r c)
    (hne : bands ≠ [])
    (hvalid : ∀ b ∈ bands, (data.npGet b).isSome = true)
    (hblur : ∀ p : Plane, p.hasShape r c →
      ((blurFn 2 p).ravel).length = r * c) :
    return_features blurFn data (some bands) true =
      some ((List.range (r * c)).map fun i =>
        (bands.map fun b => (data.bandRavel b).getD i 0) ++
          bands.map fun b => (Stack.blurRavel blurFn data b).getD i 0) := by
  have hmap : traverseOption (fun b => (data.npGet b).map Plane.ravel) bands
      = some (bands.map data.bandRavel) := by
    apply traverseOption_eq_map
    intro b hb
    obtain ⟨p, hp⟩ := Option.isSome_iff_exists.mp (hvalid b hb)
    rw [hp]
    simp [Stack.bandRavel, hp]
  have hmap2 : traverseOption
      (fun b => (data.npGet b).map fun p => Plane.ravel (blurFn 2 p)) bands
      = some (bands.map (Stack.blurRavel blurFn data)) := by
    apply traverseOption_eq_map
    intro b hb
    obtain ⟨p, hp⟩ := Option.isSome_iff_exists.mp (hvalid b hb)
    rw [hp]
    simp [Stack.blurRavel, hp]
  have hlen : ∀ x ∈ bands.map data.bandRavel ++
      bands.map (Stack.blurRavel blurFn data), x.length = r * c := by
    intro x hx
    rcases List.mem_append.mp hx with hx | hx
    · obtain ⟨b, hb, rfl⟩ := List.mem_map.mp hx
      obtain ⟨p, hp⟩ := Option.isSome_iff_exists.mp (hvalid b hb)
      have := Plane.ravel_length (hS.2 p (Stack.npGet_mem hp))
      simpa [Stack.bandRavel, hp] using this
    · obtain ⟨b, hb, rfl⟩ := List.mem_map.mp hx
      obtain ⟨p, hp⟩ := Option.isSome_iff_exists.mp (hvalid b hb)
      have := hblur p (hS.2 p (Stack.npGet_mem hp))
      simpa [Stack.blurRavel, hp] using this
  have hne' : bands.map data.bandRavel ++
      bands.map (Stack.blurRavel blurFn data) ≠ [] := by
    simp [hne]
  rw [rf_true_bind, hmap, Option.some_bind, hmap2, Option.some_bind,
    vstackT_spec hne' hlen]
  simp only [List.map_append, List.map_map]
  rfl

/-- Whenever unblurred feature extraction succeeds on a shaped stack,
the result has one row per pixel. -/
theorem rf_some_length {blurFn : ℚ → Plane → Plane} {data : Stack}
    {nb r c : ℕ} {bands : List ℤ} {M : List (List ℚ)}
    (hS : data.hasShape nb r c)
    (h : return_features blurFn data (some bands) false = some M) :
    M.length = r * c := by
  rw [rf_false_bind] at h
  cases hm : traverseOption (fun b => (data.npGet b).map Plane.ravel) bands with
  | none => rw [hm] at h; simp at h
  | some bs =>
    rw [hm, Option.some_bind] at h
    cases bs with
    | nil => simp [vstackT] at h
    | cons a rest =>
      by_cases hall : (rest.all fun x => x.length = a.length) = true
      · simp only [vstackT, hall, if_true] at h
        obtain ⟨b, hb, hfb⟩ := mem_of_traverseOption_some _ _ _ hm a (by simp)
        cases hg : data.npGet b with
        | none => rw [hg] at hfb; simp at hfb
        | some p =>
          rw [hg] at hfb
          simp only [Option.map_some'] at hfb
          have hp : p ∈ data := Stack.npGet_mem hg
          have hlen : a.length = r * c := by
            rw [← Option.some_inj.mp hfb]
            exact Plane.ravel_length (hS.2 p hp)
          rw [← Option.some_inj.mp h]
          simp [hlen]
      · simp only [vstackT] at h
        rw [if_neg hall] at h
        simp at h

/-- The flattened mask is the elementwise test on the flattened ground
truth. -/
theorem maskFlat_eq (G : Plane) (nd : ℚ) :
    maskFlat G nd = G.flatten.map fun v => decide (v ≠ nd) := by
  unfold maskFlat
  exact (List.map_flatten _ _).symm

/-- On an `r × c` ground truth the flattened mask has `r * c` entries. -/
theorem maskFlat_length {G : Plane} {r c : ℕ} (h : G.hasShape r c)
    (nd : ℚ) : (maskFlat G nd).length = r * c := by
  rw [maskFlat_eq, List.length_map]
  exact Plane.ravel_length h

/-- Boolean selection keeps as many elements as the mask has `true`
entries. -/
theorem zip_filter_length {α : Type} (l : List α) (m : List Bool)
    (h : l.length = m.length) :
    ((l.zip m).filter fun p => p.2).length = m.countP id := by
  induction l generalizing m with
  | nil =>
    cases m with
    | nil => simp
    | cons => simp at h
  | cons a t ih =>
    cases m with
    | nil => simp at h
    | cons b mt =>
      have ht : t.length = mt.length := by simpa using h
      simp only [List.zip_cons_cons, List.filter_cons, List.countP_cons]
      cases b <;> simp [ih mt ht, id]

/-- Boolean selection equals indexing at the positions where the mask
is true, in order. -/
theorem zip_filter_map_getD {α : Type} (d : α) (l : List α)
    (m : List Bool) (h : l.length = m.length) :
    (((l.zip m).filter fun p => p.2).map fun p => p.1) =
      ((List.range m.length).filter fun i => m.getD i false).map
        fun i => l.getD i d := by
  induction l generalizing m with
  | nil =>
    cases m with
    | nil => simp
    | cons => simp at h
  | cons a t ih =>
    cases m with
    | nil => simp at h
    | cons b mt =>
      have ht : t.length = mt.length := by simpa using h
      simp only [List.zip_cons_cons, List.length_cons,
        List.range_succ_eq_map, List.filter_cons, List.getD_cons_zero]
      have hmapf : (List.filter (fun i => (b :: mt).getD i false)
          (List.map Nat.succ (List.range mt.length))) =
          List.map Nat.succ
            (List.filter (fun i => mt.getD i false) (List.range mt.length)) := by
        rw [List.filter_map]
        congr 1
      have hrec := ih mt ht
      cases b with
      | false =>
        simp only [Bool.false_eq_true, if_neg, ite_false]
        rw [hrec, hmapf, List.map_map]
        rfl
      | true =>
        simp only [if_pos, ite_true, List.map_cons]
        rw [hrec, hmapf, List.map_map]
        simp [Function.comp, List.getD_cons_succ, List.getD_cons_zero]

/-- Filtering a zip of two maps of the same list by the second
component selects the first map over the filtered list. -/
theorem zip_map_filter {α β : Type} (f : α → β) (q : α → Bool)
    (l : List α) :
    ((((l.map f).zip (l.map q)).filter fun p => p.2).map fun p => p.1) =
      (l.filter q).map f := by
  induction l with
  | nil => simp
  | cons a t ih =>
    simp only [List.map_cons, List.zip_cons_cons, List.filter_cons]
    cases hq : q a <;> simp [hq, ih]

/-- The training-data assembler as a chain of fallible steps. -/
theorem cdt_bind (blurFn : ℚ → Plane → Plane) (data : Stack) (G : Plane)
    (nd : ℚ) (bandsOpt : Option (List ℤ)) :
    create_training_data blurFn data G nd bandsOpt =
      (return_features blurFn data (some (bandsOpt.getD (defaultBands data)))
        false).bind fun feats =>
      (boolSelect feats (maskFlat G nd)).bind fun X =>
      some (X, ((((G.map fun row => row.map abs).flatten).zip
        (maskFlat G nd)).filter fun p => p.2).map fun p => [p.1]) := by
  simp only [create_training_data]
  cases return_features blurFn data (some (bandsOpt.getD (defaultBands data)))
      false with
  | none => rfl
  | some feats => cases boolSelect feats (maskFlat G nd) <;> rfl

/-- On compatibly shaped inputs with the default band selection, the
training-data assembler succeeds and its components are explicit. -/
theorem cdt_none_spec (blurFn : ℚ → Plane → Plane) {data : Stack}
    {nb r c : ℕ} {G : Plane} (nd : ℚ) (hS : data.hasShape nb r c)
    (hnb : 0 < nb) (hG : G.hasShape r c) :
    ∃ M, return_features blurFn data (some (defaultBands data)) false
        = some M ∧
      M.length = r * c ∧
      (maskFlat G nd).length = r * c ∧
      create_training_data blurFn data G nd none =
        some (((M.zip (maskFlat G nd)).filter fun p => p.2).map fun p => p.1,
          ((((G.map fun row => row.map abs).flatten).zip
            (maskFlat G nd)).filter fun p => p.2).map fun p => [p.1]) := by
  have hne : defaultBands data ≠ [] := by
    simp only [defaultBands, ne_eq, List.map_eq_nil_iff, List.range_eq_nil]
    rw [hS.1]
    omega
  have hvalid : ∀ b ∈ defaultBands data, (data.npGet b).isSome = true := by
    intro b hb
    obtain ⟨k, hk, rfl⟩ := List.mem_map.mp hb
    have hklt : k < data.length := List.mem_range.mp hk
    rw [Stack.npGet_nonneg (by exact Int.ofNat_nonneg k)
      (by simpa using hklt)]
    rfl
  have hM := rf_false_eq blurFn hS hne hvalid
  refine ⟨_, hM, ?_, maskFlat_length hG nd, ?_⟩
  · simp
  · have hmlen : (maskFlat G nd).length =
        ((List.range (r * c)).map fun i =>
          (defaultBands data).map fun b => (data.bandRavel b).getD i 0).length := by
      rw [maskFlat_length hG nd]
      simp
    rw [cdt_bind]
    simp only [Option.getD_none]
    rw [hM, Option.some_bind]
    unfold boolSelect
    rw [if_pos hmlen, Option.some_bind]

/-- C5: for every band stack and blur flag, omitting the band selection
is the same as passing all band indices 0..N-1 in natural order; the
default is resolved fresh per call from the stack's length. -/
theorem seagrass_C5 (blurFn : ℚ → Plane → Plane) (data : Stack)
    (blurring : Bool) :
    return_features blurFn data none blurring =
      return_features blurFn data (some (defaultBands data)) blurring := rfl

/-- C9: the prediction-feature assembler returns exactly the feature
builder's unblurred output, for explicit and omitted band selections
alike. -/
theorem seagrass_C9 (blurFn : ℚ → Plane → Plane) (data : Stack)
    (bandsOpt : Option (List ℤ)) :
    create_prediction_features blurFn data bandsOpt =
      return_features blurFn data bandsOpt false := by
  cases bandsOpt <;> rfl

/-- C8: a band selection containing an index at or beyond the band
count makes the feature builder fail (numpy `IndexError`), for either
blur setting. -/
theorem seagrass_C8 (blurFn : ℚ → Plane → Plane) (data : Stack)
    (bands : List ℤ) (blurring : Bool)
    (h : ∃ b ∈ bands, (data.length : ℤ) ≤ b) :
    return_features blurFn data (some bands) blurring = none := by
  obtain ⟨b, hb, hle⟩ := h
  have hg : data.npGet b = none := by
    unfold Stack.npGet resolveIndex
    have h0 : 0 ≤ b := by omega
    have hnlt : ¬ b.toNat < data.length := by omega
    rw [if_pos h0, if_neg hnlt]
    rfl
  have hmap1 := traverseOption_eq_none
    (fun b => (data.npGet b).map Plane.ravel) bands b hb (by simp [hg])
  cases blurring with
  | false => rw [rf_false_bind, hmap1]; rfl
  | true => rw [rf_true_bind, hmap1]; rfl

/-- C8 witness: `bandSelection = [99]` on the 2-band example stack
fails. -/
theorem seagrass_C8_witness :
    return_features idBlur stackEx (some [99]) false = none :=
  seagrass_C8 idBlur stackEx [99] false ⟨99, by decide, by decide⟩

/-- C2 counterexample: on a 1-band 1×1 stack, the empty band selection
does not return a `(pixels, 0)` matrix; `np.vstack([])` fails, so the
call errors out. -/
theorem seagrass_C2_counterexample :
    return_features idBlur [[[(1 : ℚ)]]] (some []) false = none := by rfl

/-- C2 amended: for every band stack and blur flag, an empty band
selection makes the feature builder fail (`np.vstack` of an empty list
raises), rather than returning a matrix with zero feature columns. -/
theorem seagrass_C2 (blurFn : ℚ → Plane → Plane) (data : Stack)
    (blurring : Bool) :
    return_features blurFn data (some []) blurring = none := by
  cases blurring with
  | false => rw [rf_false_bind]; rfl
  | true => rw [rf_true_bind]; rfl

/-- C3: unblurred feature extraction over a non-empty selection of
valid non-negative band indices yields one row per pixel in row-major
order, one column per selected band, column `j` being the row-major
flattening of band `B[j]`. -/
theorem seagrass_C3 (blurFn : ℚ → Plane → Plane) (data : Stack)
    (nb r c : ℕ) (bands : List ℤ) (hS : data.hasShape nb r c)
    (hne : bands ≠ []) (hval : ∀ b ∈ bands, 0 ≤ b ∧ b.toNat < nb) :
    ∃ M, return_features blurFn data (some bands) false = some M ∧
      M.length = r * c ∧
      (∀ row ∈ M, row.length = bands.length) ∧
      ∀ i < r * c, M.get? i =
        some (bands.map fun b => ((data.getD b.toNat []).ravel).getD i 0) := by
  have hlt : ∀ b ∈ bands, b.toNat < data.length := by
    intro b hb
    rw [hS.1]
    exact (hval b hb).2
  have hvalid : ∀ b ∈ bands, (data.npGet b).isSome = true := by
    intro b hb
    rw [Stack.npGet_nonneg (hval b hb).1 (hlt b hb)]
    rfl
  have hband : ∀ b ∈ bands,
      data.bandRavel b = (data.getD b.toNat []).ravel := by
    intro b hb
    rw [Stack.bandRavel, Stack.npGet_nonneg (hval b hb).1 (hlt b hb)]
    rfl
  have hM := rf_false_eq blurFn hS hne hvalid
  refine ⟨_, hM, by simp, ?_, ?_⟩
  · intro row hrow
    obtain ⟨i, _, rfl⟩ := List.mem_map.mp hrow
    simp
  · intro i hi
    rw [List.get?_map, List.get?_range hi, Option.map_some']
    exact congrArg some (List.map_congr_left fun b hb => by rw [hband b hb])

/-- C3 witness: the spec's 2-band 2×2 scenario, returning rows
[1,5],[2,6],[3,7],[4,8]. -/
theorem seagrass_C3_witness :
    (∃ M, return_features idBlur stackEx (some [0, 1]) false = some M ∧
      M.length = 2 * 2 ∧
      (∀ row ∈ M, row.length = ([0, 1] : List ℤ).length) ∧
      ∀ i < 2 * 2, M.get? i =
        some (([0, 1] : List ℤ).map fun b =>
          ((stackEx.getD b.toNat []).ravel).getD i 0)) ∧
    return_features idBlur stackEx (some [0, 1]) false =
      some [[1, 5], [2, 6], [3, 7], [4, 8]] :=
  ⟨seagrass_C3 idBlur stackEx 2 2 2 [0, 1] (by decide) (by decide)
    (by decide), by decide⟩

/-- C1 counterexample: a 1-band stack with 2×3 planes against a 3×2
ground truth has mismatched spatial shapes, yet `create_training_data`
returns an (X, y) pair because the flattened pixel counts coincide. -/
theorem seagrass_C1_counterexample :
    Stack.hasShape stackRect 1 2 3 ∧ Plane.hasShape gtTrans 3 2 ∧
    ¬(2 = 3 ∧ 3 = 2) ∧
    create_training_data idBlur stackRect gtTrans 0 none =
      some ([[1], [2], [3], [5], [6]], [[1], [2], [3], [5], [6]]) :=
  ⟨by decide, by decide, by decide, by decide⟩

/-- C1 amended: shape mismatch is only caught indirectly: whenever the
ground truth's total pixel count differs from the stack plane's total
pixel count, `create_training_data` fails (at the boolean mask indexing
step, after the feature matrix is computed); equal pixel counts with
transposed dimensions are accepted silently. -/
theorem seagrass_C1 (blurFn : ℚ → Plane → Plane) (data : Stack)
    (nb r c : ℕ) (G : Plane) (rG cG : ℕ) (nd : ℚ)
    (bandsOpt : Option (List ℤ)) (hS : data.hasShape nb r c)
    (hG : G.hasShape rG cG) (hmm : r * c ≠ rG * cG) :
    create_training_data blurFn data G nd bandsOpt = none := by
  rw [cdt_bind]
  cases hrf : return_features blurFn data
      (some (bandsOpt.getD (defaultBands data))) false with
  | none => rfl
  | some M =>
    have hlen := rf_some_length hS hrf
    simp only [Option.some_bind]
    unfold boolSelect
    rw [if_neg (by rw [maskFlat_length hG nd, hlen]; exact fun he => hmm he.symm)]
    rfl

/-- C1 witness: a 2×3-plane stack against a 2×2 ground truth (pixel
counts 6 vs 4) makes `create_training_data` fail. -/
theorem seagrass_C1_witness :
    Stack.hasShape stackRect 1 2 3 ∧ Plane.hasShape gtSquare 2 2 ∧
    2 * 3 ≠ 2 * 2 ∧
    create_training_data idBlur stackRect gtSquare 0 none = none :=
  ⟨by decide, by decide, by decide,
    seagrass_C1 idBlur stackRect 1 2 3 gtSquare 2 2 0 none
      (by decide) (by decide) (by decide)⟩

/-- C4: blurred feature extraction doubles the column count: each row
is the unblurred row followed by the per-band blurred values
(smoothing primitive applied at standard deviation 2 to the band's 2D
plane before flattening), in the same band order. -/
theorem seagrass_C4 (blurFn : ℚ → Plane → Plane) (data : Stack)
    (nb r c : ℕ) (bands : List ℤ) (hS : data.hasShape nb r c)
    (hne : bands ≠ []) (hval : ∀ b ∈ bands, 0 ≤ b ∧ b.toNat < nb)
    (hblur : ∀ p : Plane, p.hasShape r c →
      ((blurFn 2 p).ravel).length = r * c) :
    ∃ M Mf,
      return_features blurFn data (some bands) true = some M ∧
      return_features blurFn data (some bands) false = some Mf ∧
      M.length = r * c ∧
      (∀ row ∈ M, row.length = 2 * bands.length) ∧
      ∀ i < r * c, ∀ rowF, Mf.get? i = some rowF →
        M.get? i = some (rowF ++ bands.map fun b =>
          ((blurFn 2 (data.getD b.toNat [])).ravel).getD i 0) := by
  have hlt : ∀ b ∈ bands, b.toNat < data.length := by
    intro b hb
    rw [hS.1]
    exact (hval b hb).2
  have hvalid : ∀ b ∈ bands, (data.npGet b).isSome = true := by
    intro b hb
    rw [Stack.npGet_nonneg (hval b hb).1 (hlt b hb)]
    rfl
  have hblb : ∀ b ∈ bands, Stack.blurRavel blurFn data b =
      (blurFn 2 (data.getD b.toNat [])).ravel := by
    intro b hb
    rw [Stack.blurRavel, Stack.npGet_nonneg (hval b hb).1 (hlt b hb)]
    rfl
  have hMf := rf_false_eq blurFn hS hne hvalid
  have hM := rf_true_eq blurFn hS hne hvalid hblur
  refine ⟨_, _, hM, hMf, by simp, ?_, ?_⟩
  · intro row hrow
    obtain ⟨i, _, rfl⟩ := List.mem_map.mp hrow
    simp [two_mul]
  · intro i hi rowF hrowF
    rw [List.get?_map, List.get?_range hi, Option.map_some'] at hrowF
    rw [List.get?_map, List.get?_range hi, Option.map_some']
    refine congrArg some ?_
    rw [← Option.some_inj.mp hrowF]
    refine congrArg (_ ++ ·) ?_
    exact List.map_congr_left fun b hb => by rw [hblb b hb]

/-- C4 witness: the 2-band 2×2 stack with selection [0,1] and the
identity smoothing function. -/
theorem seagrass_C4_witness :
    (∃ M Mf,
      return_features idBlur stackEx (some [0, 1]) true = some M ∧
      return_features idBlur stackEx (some [0, 1]) false = some Mf ∧
      M.length = 2 * 2 ∧
      (∀ row ∈ M, row.length = 2 * ([0, 1] : List ℤ).length) ∧
      ∀ i < 2 * 2, ∀ rowF, Mf.get? i = some rowF →
        M.get? i = some (rowF ++ ([0, 1] : List ℤ).map fun b =>
          ((idBlur 2 (stackEx.getD b.toNat [])).ravel).getD i 0)) ∧
    return_features idBlur stackEx (some [0, 1]) true =
      some [[1, 5, 1, 5], [2, 6, 2, 6], [3, 7, 3, 7], [4, 8, 4, 8]] :=
  ⟨seagrass_C4 idBlur stackEx 2 2 2 [0, 1] (by decide) (by decide)
    (by decide) (fun p hp => Plane.ravel_length hp), by decide⟩

/-- C6: with matching shapes, training-data assembly succeeds; X and y
have one row per valid (non-sentinel) ground-truth entry, and the rows
of X are exactly the rows of the full unmasked feature matrix at the
positions where the row-major flattened mask is true, in that order. -/
theorem seagrass_C6 (blurFn : ℚ → Plane → Plane) (data : Stack)
    (nb r c : ℕ) (G : Plane) (nd : ℚ) (hS : data.hasShape nb r c)
    (hnb : 0 < nb) (hG : G.hasShape r c) :
    ∃ M X y,
      return_features blurFn data (some (defaultBands data)) false
        = some M ∧
      create_training_data blurFn data G nd none = some (X, y) ∧
      X.length = G.flatten.countP (fun v => v ≠ nd) ∧
      y.length = G.flatten.countP (fun v => v ≠ nd) ∧
      X = ((List.range (r * c)).filter fun i =>
        (maskFlat G nd).getD i false).map fun i => M.getD i [] := by
  obtain ⟨M, hM, hMlen, hmlen, hcdt⟩ :=
    cdt_none_spec blurFn nd hS hnb hG
  have hcount : (maskFlat G nd).countP id
      = G.flatten.countP (fun v => v ≠ nd) := by
    rw [maskFlat_eq, List.countP_map]
    rfl
  have habs : ((G.map fun row => row.map abs).flatten).length = r * c := by
    rw [← List.map_flatten, List.length_map]
    exact Plane.ravel_length hG
  refine ⟨M, _, _, hM, hcdt, ?_, ?_, ?_⟩
  · rw [List.length_map, zip_filter_length M (maskFlat G nd)
      (by rw [hMlen, hmlen]), hcount]
  · rw [List.length_map, zip_filter_length _ (maskFlat G nd)
      (by rw [habs, hmlen]), hcount]
  · rw [zip_filter_map_getD [] M (maskFlat G nd) (by rw [hMlen, hmlen]),
      hmlen]

/-- C6 witness: the spec scenario ground truth [[-1, nd], [nd, 3]] with
nd = -9999 over the 2-band 2×2 stack: X keeps feature rows 0 and 3. -/
theorem seagrass_C6_witness :
    (∃ M X y,
      return_features idBlur stackEx (some (defaultBands stackEx)) false
        = some M ∧
      create_training_data idBlur stackEx gtValid (-9999) none
        = some (X, y) ∧
      X.length = gtValid.flatten.countP (fun v => v ≠ -9999) ∧
      y.length = gtValid.flatten.countP (fun v => v ≠ -9999) ∧
      X = ((List.range (2 * 2)).filter fun i =>
        (maskFlat gtValid (-9999)).getD i false).map fun i => M.getD i []) ∧
    create_training_data idBlur stackEx gtValid (-9999) none =
      some ([[1, 5], [4, 8]], [[1], [3]]) :=
  ⟨seagrass_C6 idBlur stackEx 2 2 2 gtValid (-9999) (by decide) (by decide)
    (by decide), by decide⟩

/-- C7: y is the column vector of absolute values of the valid
ground-truth entries in row-major order; each row is a singleton and
every entry is non-negative. -/
theorem seagrass_C7 (blurFn : ℚ → Plane → Plane) (data : Stack)
    (nb r c : ℕ) (G : Plane) (nd : ℚ) (hS : data.hasShape nb r c)
    (hnb : 0 < nb) (hG : G.hasShape r c) :
    ∃ X y,
      create_training_data blurFn data G nd none = some (X, y) ∧
      y = (G.flatten.filter fun v => v ≠ nd).map (fun v => [abs v]) ∧
      (∀ row ∈ y, row.length = 1) ∧
      ∀ row ∈ y, ∀ x ∈ row, 0 ≤ x := by
  obtain ⟨M, hM, hMlen, hmlen, hcdt⟩ :=
    cdt_none_spec blurFn nd hS hnb hG
  have hy : ((((G.map fun row => row.map abs).flatten).zip
      (maskFlat G nd)).filter fun p => p.2).map (fun p => [p.1])
      = (G.flatten.filter fun v => v ≠ nd).map fun v => [abs v] := by
    rw [maskFlat_eq, ← List.map_flatten]
    have hsplit : (fun p : ℚ × Bool => [p.1])
        = (fun v : ℚ => [v]) ∘ (fun p : ℚ × Bool => p.1) := rfl
    rw [hsplit, ← List.map_map, zip_map_filter abs
      (fun v => decide (v ≠ nd)) G.flatten, List.map_map]
    rfl
  refine ⟨_, _, hcdt, hy, ?_, ?_⟩
  · intro row hrow
    rw [hy] at hrow
    obtain ⟨v, _, rfl⟩ := List.mem_map.mp hrow
    rfl
  · intro row hrow x hx
    rw [hy] at hrow
    obtain ⟨v, _, rfl⟩ := List.mem_map.mp hrow
    rcases List.mem_singleton.mp hx with rfl
    exact abs_nonneg v

/-- C7 witness: a valid ground-truth entry -5 produces the label 5. -/
theorem seagrass_C7_witness :
    (∃ X y,
      create_training_data idBlur stackEx gtNeg (-9999) none
        = some (X, y) ∧
      y = (gtNeg.flatten.filter fun v => v ≠ -9999).map (fun v => [abs v]) ∧
      (∀ row ∈ y, row.length = 1) ∧
      ∀ row ∈ y, ∀ x ∈ row, 0 ≤ x) ∧
    create_training_data idBlur stackEx gtNeg (-9999) none =
      some ([[1, 5], [4, 8]], [[5], [3]]) :=
  ⟨seagrass_C7 idBlur stackEx 2 2 2 gtNeg (-9999) (by decide) (by decide)
    (by decide), by decide⟩

/-- C10 (implicit behavior): a negative band index `-k` with
`1 ≤ k ≤ N` is accepted by the feature builder and selects band `N-k`,
in both the unblurred and blurred paths, although the spec requires
non-negative indices. -/
theorem seagrass_C10 (blurFn : ℚ → Plane → Plane) (data : Stack)
    (nb r c k : ℕ) (hS : data.hasShape nb r c) (hk1 : 1 ≤ k)
    (hk2 : k ≤ nb)
    (hblur : ∀ p : Plane, p.hasShape r c →
      ((blurFn 2 p).ravel).length = r * c) :
    data.npGet (-(k : ℤ)) = some (data.getD (nb - k) []) ∧
    (∃ M, return_features blurFn data (some [-(k : ℤ)]) false = some M ∧
      ∀ i < r * c, M.get? i =
        some [((data.getD (nb - k) []).ravel).getD i 0]) ∧
    ∃ M, return_features blurFn data (some [-(k : ℤ)]) true = some M ∧
      ∀ i < r * c, M.get? i =
        some [((data.getD (nb - k) []).ravel).getD i 0,
          ((blurFn 2 (data.getD (nb - k) [])).ravel).getD i 0] := by
  have hk2l : k ≤ data.length := by rw [hS.1]; exact hk2
  have hg : data.npGet (-(k : ℤ)) = some (data.getD (nb - k) []) := by
    rw [Stack.npGet_neg hk1 hk2l, hS.1]
  have hvalid : ∀ b ∈ [-(k : ℤ)], (data.npGet b).isSome = true := by
    intro b hb
    rcases List.mem_singleton.mp hb with rfl
    rw [hg]
    rfl
  have hband : data.bandRavel (-(k : ℤ)) = (data.getD (nb - k) []).ravel := by
    rw [Stack.bandRavel, hg]
    rfl
  have hblb : Stack.blurRavel blurFn data (-(k : ℤ))
      = (blurFn 2 (data.getD (nb - k) [])).ravel := by
    rw [Stack.blurRavel, hg]
    rfl
  refine ⟨hg, ⟨_, rf_false_eq blurFn hS (by simp) hvalid, ?_⟩,
    ⟨_, rf_true_eq blurFn hS (by simp) hvalid hblur, ?_⟩⟩
  · intro i hi
    rw [List.get?_map, List.get?_range hi, Option.map_some']
    simp [hband]
  · intro i hi
    rw [List.get?_map, List.get?_range hi, Option.map_some']
    simp [hband, hblb]

/-- C10 witness: on the 2-band 2×2 stack, selection [-1] selects band 1
([[5,6],[7,8]]) and does not fail. -/
theorem seagrass_C10_witness :
    (stackEx.npGet (-(1 : ℤ)) = some (stackEx.getD (2 - 1) []) ∧
    (∃ M, return_features idBlur stackEx (some [-(1 : ℤ)]) false = some M ∧
      ∀ i < 2 * 2, M.get? i =
        some [((stackEx.getD (2 - 1) []).ravel).getD i 0]) ∧
    ∃ M, return_features idBlur stackEx (some [-(1 : ℤ)]) true = some M ∧
      ∀ i < 2 * 2, M.get? i =
        some [((stackEx.getD (2 - 1) []).ravel).getD i 0,
          ((idBlur 2 (stackEx.getD (2 - 1) [])).ravel).getD i 0]) ∧
    return_features idBlur stackEx (some [-(1 : ℤ)]) false =
      some [[5], [6], [7], [8]] :=
  ⟨seagrass_C10 idBlur stackEx 2 2 2 1 (by decide) (by decide) (by decide)
    (fun p hp => Plane.ravel_length hp), by decide⟩
